import Mathlib

/-!
Verification of the core logic of the Shenwan industry PE/PB percentile
script (`industry_pe_pb_sw.py`): the pure percentile-rank computation
`calculate_percentile_rank` and the rate-limited retry wrapper
`TushareAPI.call_with_retry`.

Modelling conventions:
* pandas float values (possibly NaN) become `Option ℚ`; `NaN` is `none`.
* A pandas series becomes `List (Option ℚ)`; `dropna` keeps the defined
  entries in order.
* Python `round(x, 2)` is modelled exactly as round-half-to-even at two
  decimal places over `ℚ`.
* The retry wrapper is modelled with an explicit clock (`ℚ` seconds) and
  explicit client state; the behaviour of the wrapped API operation on each
  attempt is a parameter `api : ℕ → CallOutcome α` giving, per attempt, either
  a result or an exception message, together with the call's duration.
-/

namespace IndustryPePbSw

/-- Round-half-to-even of a rational to the nearest integer, as Python's
built-in `round` does. -/
def roundHalfEven (q : ℚ) : ℤ :=
  let f := ⌊q⌋
  let r := q - (f : ℚ)
  if r < 1/2 then f
  else if 1/2 < r then f + 1
  else if f % 2 = 0 then f else f + 1

/-- Python `round(x, 2)`: round to two decimal places. -/
def round2 (q : ℚ) : ℚ := (roundHalfEven (q * 100) : ℚ) / 100

/-- pandas `Series.dropna()`: the defined values of the series, in order. -/
def dropna (series : List (Option ℚ)) : List ℚ := series.filterMap id

/-- Embedding of `calculate_percentile_rank(series, value)`
(industry_pe_pb_sw.py, lines 158-171). -/
def calculate_percentile_rank (series : List (Option ℚ)) (value : Option ℚ) :
    Option ℚ :=
  match value with
  | none => none
  | some v =>
    if series.length = 0 then none
    else
      let clean_series := dropna series
      if clean_series.length = 0 then none
      else
        let count_below := clean_series.countP (fun x => decide (x < v))
        let count_equal := clean_series.countP (fun x => decide (x = v))
        some (round2 (((count_below : ℚ) + (0.5 : ℚ) * (count_equal : ℚ)) /
          (clean_series.length : ℚ) * 100))

/-- From the spec's words: the number of defined historical values strictly
less than the query value. -/
def spec_count_below (series : List (Option ℚ)) (v : ℚ) : ℕ :=
  ((series.filterMap id).filter (fun x => decide (x < v))).length

/-- From the spec's words: the number of defined historical values equal to
the query value. -/
def spec_count_equal (series : List (Option ℚ)) (v : ℚ) : ℕ :=
  ((series.filterMap id).filter (fun x => decide (x = v))).length

/-- From the spec's words: the count of defined values of the series. -/
def spec_defined_count (series : List (Option ℚ)) : ℕ :=
  (series.filterMap id).length

/-- From the spec's words: percentile =
(count_below + 0.5 × count_equal) / (count of defined values) × 100,
rounded to two decimal places. -/
def spec_percentile (series : List (Option ℚ)) (v : ℚ) : ℚ :=
  round2 (((spec_count_below series v : ℚ) +
    (0.5 : ℚ) * (spec_count_equal series v : ℚ)) /
    (spec_defined_count series : ℚ) * 100)

/-- Module constant `REQUEST_INTERVAL = 0.3` (industry_pe_pb_sw.py, line 28). -/
def REQUEST_INTERVAL : ℚ := 0.3

/-- Module constant `RATE_LIMIT_WAIT = 65` (industry_pe_pb_sw.py, line 29). -/
def RATE_LIMIT_WAIT : ℚ := 65

/-- Python's `needle in hay` substring test, on character lists. -/
def isSubListOf (needle : List Char) : List Char → Bool
  | [] => needle.isEmpty
  | c :: t => needle.isPrefixOf (c :: t) || isSubListOf needle t

/-- The rate-limit test of `call_with_retry` line 57: the exception message
contains "每分钟最多访问" or "访问过于频繁". -/
def isRateLimitMsg (m : String) : Bool :=
  isSubListOf "每分钟最多访问".data m.data || isSubListOf "访问过于频繁".data m.data

/-- The mutable state of a `TushareAPI` instance: the wrapped `pro` handle
(opaque, modelled as a number), `last_request_time` and `total_requests`. -/
structure TushareAPI where
  pro : ℕ
  last_request_time : ℚ
  total_requests : ℕ
  deriving DecidableEq

/-- Behaviour of one invocation of the wrapped operation `api_func(**kwargs)`:
it either returns a result or raises an exception with a message, and takes
`dur` time units to do so. -/
inductive CallOutcome (α : Type) where
  | ok (result : α) (dur : ℚ)
  | err (msg : String) (dur : ℚ)
  deriving DecidableEq

/-- The duration of a call outcome. -/
def CallOutcome.dur {α : Type} : CallOutcome α → ℚ
  | .ok _ d => d
  | .err _ d => d

/-- Whether a call outcome is an exception. -/
def CallOutcome.isErr {α : Type} : CallOutcome α → Bool
  | .ok _ _ => false
  | .err _ _ => true

/-- What one run of `call_with_retry` produces: the returned value (`none` is
the Python `None` sentinel), the client state after the call, the clock when
the call returns, and how many times the wrapped operation was invoked. -/
structure RetryOutcome (α : Type) where
  result : Option α
  state : TushareAPI
  clock : ℚ
  attempts : ℕ
  deriving DecidableEq

/-- The loop body of `call_with_retry` (industry_pe_pb_sw.py, lines 42-65),
with the remaining iterations of `for attempt in range(max_retries)` as fuel.
Each iteration: sleep out the remainder of `REQUEST_INTERVAL` since
`last_request_time`, invoke the operation (outcome `api attempt`); on success
set `last_request_time` to the completion time, increment `total_requests`
and return the result; on an exception sleep `RATE_LIMIT_WAIT` if the message
matches the rate-limit patterns and 2 otherwise, then continue with the next
attempt. Exhausted fuel is the loop falling through to `return None`. -/
def call_with_retry_go {α : Type} (api : ℕ → CallOutcome α) (st : TushareAPI)
    (now : ℚ) (attempt : ℕ) : ℕ → RetryOutcome α
  | 0 => ⟨none, st, now, 0⟩
  | fuel + 1 =>
    let elapsed := now - st.last_request_time
    let start := if elapsed < REQUEST_INTERVAL then now + (REQUEST_INTERVAL - elapsed)
      else now
    match api attempt with
    | .ok r d =>
      let fin := start + d
      let st2 : TushareAPI :=
        { st with last_request_time := fin, total_requests := st.total_requests + 1 }
      ⟨some r, st2, fin, 1⟩
    | .err m d =>
      let fin := start + d
      let next := if isRateLimitMsg m then fin + RATE_LIMIT_WAIT else fin + 2
      let rest := call_with_retry_go api st next (attempt + 1) fuel
      ⟨rest.result, rest.state, rest.clock, rest.attempts + 1⟩

/-- Embedding of `TushareAPI.call_with_retry(api_func, api_name, max_retries,
**kwargs)` (industry_pe_pb_sw.py, lines 40-65), started at clock `now`. -/
def TushareAPI.call_with_retry {α : Type} (st : TushareAPI)
    (api : ℕ → CallOutcome α) (now : ℚ) (max_retries : ℕ) : RetryOutcome α :=
  call_with_retry_go api st now 0 max_retries

/-- Bump the attempt count of a retry outcome by one: the shape of a run of
the loop whose first iteration failed. -/
def consume_one_attempt {α : Type} (rest : RetryOutcome α) : RetryOutcome α :=
  { rest with attempts := rest.attempts + 1 }

/-- Round-half-to-even agrees with the nearest integer when the input is less
than half above that integer. -/
theorem roundHalfEven_eq_of_lt_half {q : ℚ} {n : ℤ} (hl : (n : ℚ) ≤ q)
    (hu : q < (n : ℚ) + 1/2) : roundHalfEven q = n := by
  have hf : ⌊q⌋ = n := by
    rw [Int.floor_eq_iff]
    constructor
    · exact hl
    · linarith
  simp only [roundHalfEven, hf]
  rw [if_pos (by linarith)]

/-- Round-half-to-even agrees with the nearest integer when the input is less
than half below that integer. -/
theorem roundHalfEven_eq_of_gt_half {q : ℚ} {n : ℤ} (hl : (n : ℚ) - 1/2 < q)
    (hu : q ≤ (n : ℚ)) : roundHalfEven q = n := by
  rcases eq_or_lt_of_le hu with heq | hlt
  · subst heq
    simp only [roundHalfEven, Int.floor_intCast, sub_self]
    rw [if_pos (by norm_num)]
  · have hf : ⌊q⌋ = n - 1 := by
      rw [Int.floor_eq_iff]
      push_cast
      constructor <;> linarith
    simp only [roundHalfEven, hf]
    rw [if_neg (by push_cast; linarith), if_pos (by push_cast; linarith)]
    ring

/-- On a defined query and a series with at least one defined value,
the percentile function computes the spec formula. -/
theorem percentile_formula (series : List (Option ℚ)) (v : ℚ)
    (h : 0 < spec_defined_count series) :
    calculate_percentile_rank series (some v) = some (spec_percentile series v) := by
  have h1 : series.length ≠ 0 := by
    intro h0
    have hnil : series = [] := List.length_eq_zero.mp h0
    rw [hnil] at h
    simp [spec_defined_count] at h
  have h2 : (series.filterMap id).length ≠ 0 := by
    rw [spec_defined_count] at h
    omega
  simp only [calculate_percentile_rank, spec_percentile, spec_count_below,
    spec_count_equal, spec_defined_count, if_neg h1, if_neg h2,
    List.countP_eq_length_filter, dropna]

/-- Destructing a defined result of `calculate_percentile_rank`: the series
has a defined value and the result is the rounded midpoint-of-ties ratio. -/
theorem percentile_some_elim {series : List (Option ℚ)} {v p : ℚ}
    (h : calculate_percentile_rank series (some v) = some p) :
    0 < (series.filterMap id).length ∧
      p = round2 ((((series.filterMap id).countP (fun x => decide (x < v)) : ℚ) +
        (0.5 : ℚ) * ((series.filterMap id).countP (fun x => decide (x = v)) : ℚ)) /
        ((series.filterMap id).length : ℚ) * 100) := by
  simp only [calculate_percentile_rank, dropna] at h
  split_ifs at h with h1 h2
  exact ⟨Nat.pos_of_ne_zero h2, (Option.some_inj.mp h).symm⟩

/-- Summing counts of two predicates no element satisfies together. -/
theorem countP_disjoint_or {α : Type} (p q : α → Bool) (l : List α)
    (h : ∀ x ∈ l, ¬(p x = true ∧ q x = true)) :
    l.countP (fun x => p x || q x) = l.countP p + l.countP q := by
  induction l with
  | nil => simp
  | cons a t ih =>
    have ht := ih (fun x hx => h x (List.mem_cons_of_mem a hx))
    rw [List.countP_cons, List.countP_cons, List.countP_cons, ht]
    by_cases hp : p a = true <;> by_cases hq : q a = true
    · exact absurd ⟨hp, hq⟩ (h a (List.mem_cons_self a t))
    all_goals (simp [hp, hq] <;> omega)

/-- Counts of two mutually exclusive predicates fit inside the length. -/
theorem countP_add_le_length {α : Type} (p q : α → Bool) (l : List α)
    (h : ∀ x ∈ l, ¬(p x = true ∧ q x = true)) :
    l.countP p + l.countP q ≤ l.length := by
  rw [← countP_disjoint_or p q l h]
  exact List.countP_le_length _

/-- Round-half-to-even moves its argument by at most one half. -/
theorem roundHalfEven_bounds (q : ℚ) :
    q - 1/2 ≤ (roundHalfEven q : ℚ) ∧ (roundHalfEven q : ℚ) ≤ q + 1/2 := by
  have h1 : (⌊q⌋ : ℚ) ≤ q := Int.floor_le q
  have h2 : q < ⌊q⌋ + 1 := Int.lt_floor_add_one q
  constructor <;>
    (simp only [roundHalfEven]; split_ifs <;> push_cast <;> linarith)

/-- Round-half-to-even never exceeds the floor by more than one. -/
theorem roundHalfEven_le_floor_add_one (q : ℚ) : roundHalfEven q ≤ ⌊q⌋ + 1 := by
  simp only [roundHalfEven]
  split_ifs <;> omega

/-- Round-half-to-even is at least the floor. -/
theorem floor_le_roundHalfEven (q : ℚ) : ⌊q⌋ ≤ roundHalfEven q := by
  simp only [roundHalfEven]
  split_ifs <;> omega

/-- Round-half-to-even is monotone. -/
theorem roundHalfEven_mono {x y : ℚ} (hxy : x ≤ y) :
    roundHalfEven x ≤ roundHalfEven y := by
  have hfm : ⌊x⌋ ≤ ⌊y⌋ := Int.floor_le_floor hxy
  rcases lt_or_eq_of_le hfm with hlt | heq
  · calc roundHalfEven x ≤ ⌊x⌋ + 1 := roundHalfEven_le_floor_add_one x
      _ ≤ ⌊y⌋ := by omega
      _ ≤ roundHalfEven y := floor_le_roundHalfEven y
  · have hx1 : (⌊x⌋ : ℚ) ≤ x := Int.floor_le x
    have hy2 : y < (⌊x⌋ : ℚ) + 1 := by
      rw [heq]
      exact_mod_cast Int.lt_floor_add_one y
    simp only [roundHalfEven, ← heq]
    split_ifs <;> first | omega | linarith

/-- C1: for every historical series with at least one defined value and every
defined query value, `calculate_percentile_rank` returns
(count_below + 0.5 * count_equal) / n * 100 rounded to two decimal places,
where n is the number of defined values, count_below the number of defined
values strictly below the query and count_equal the number equal to it. -/
theorem calculate_percentile_rank_eq_spec (series : List (Option ℚ)) (v : ℚ)
    (h : 0 < spec_defined_count series) :
    calculate_percentile_rank series (some v) = some (spec_percentile series v) :=
  percentile_formula series v h

/-- C1 witness: the spec's worked example, series [10, 20, 20, 30] with query
20, yields 50.0. -/
theorem calculate_percentile_rank_eq_spec_witness :
    0 < spec_defined_count [some 10, some 20, some 20, some 30] ∧
    calculate_percentile_rank [some 10, some 20, some 20, some 30] (some 20) =
      some 50 := by
  refine ⟨by decide, ?_⟩
  rw [calculate_percentile_rank_eq_spec [some 10, some 20, some 20, some 30]
    20 (by decide)]
  have hb : spec_count_below [some 10, some 20, some 20, some 30] 20 = 1 := by
    decide
  have he : spec_count_equal [some 10, some 20, some 20, some 30] 20 = 2 := by
    decide
  have hn : spec_defined_count [some 10, some 20, some 20, some 30] = 4 := by
    decide
  rw [spec_percentile, hb, he, hn]
  have harg : (((1 : ℕ) : ℚ) + (0.5 : ℚ) * ((2 : ℕ) : ℚ)) / ((4 : ℕ) : ℚ) * 100 =
      50 := by
    norm_num
  rw [harg, round2, show (50 : ℚ) * 100 = ((5000 : ℤ) : ℚ) by norm_num,
    roundHalfEven_eq_of_lt_half (le_refl _) (by norm_num)]
  norm_num

/-- C2: `calculate_percentile_rank` returns `none` exactly when the query
value is missing or the series contains no defined value. -/
theorem calculate_percentile_rank_none_iff (series : List (Option ℚ))
    (value : Option ℚ) :
    calculate_percentile_rank series value = none ↔
      value = none ∨ series.filterMap id = [] := by
  cases value with
  | none => simp [calculate_percentile_rank]
  | some v =>
    simp only [calculate_percentile_rank, dropna]
    by_cases h1 : series.length = 0
    · have hnil : series = [] := List.length_eq_zero.mp h1
      subst hnil
      simp
    · rw [if_neg h1]
      by_cases h2 : (series.filterMap id).length = 0
      · rw [if_pos h2]
        simp [List.length_eq_zero.mp h2]
      · rw [if_neg h2]
        constructor
        · intro h
          exact absurd h (Option.some_ne_none _)
        · rintro (h | h)
          · exact absurd h (Option.some_ne_none _)
          · rw [h] at h2
            simp at h2

/-- No value is both strictly below and equal to the query. -/
theorem below_equal_disjoint (v : ℚ) (l : List ℚ) :
    ∀ x ∈ l, ¬((decide (x < v)) = true ∧ (decide (x = v)) = true) := by
  intro x _ hx
  obtain ⟨hlt, heqx⟩ := hx
  rw [decide_eq_true_eq] at hlt heqx
  rw [heqx] at hlt
  exact lt_irrefl v hlt

/-- Concrete evaluation: the spec's worked example gives 50. -/
theorem percentile_example_fifty :
    calculate_percentile_rank [some 10, some 20, some 20, some 30] (some 20) =
      some 50 := by
  rw [percentile_formula _ 20 (by decide)]
  have hb : spec_count_below [some 10, some 20, some 20, some 30] 20 = 1 := by
    decide
  have he : spec_count_equal [some 10, some 20, some 20, some 30] 20 = 2 := by
    decide
  have hn : spec_defined_count [some 10, some 20, some 20, some 30] = 4 := by
    decide
  rw [spec_percentile, hb, he, hn]
  have harg : (((1 : ℕ) : ℚ) + (0.5 : ℚ) * ((2 : ℕ) : ℚ)) / ((4 : ℕ) : ℚ) * 100 =
      50 := by norm_num
  rw [harg, round2, show (50 : ℚ) * 100 = ((5000 : ℤ) : ℚ) by norm_num,
    roundHalfEven_eq_of_lt_half (le_refl _) (by norm_num)]
  norm_num

/-- Concrete evaluation: querying the example series at its minimum 10 gives
12.5. -/
theorem percentile_example_min :
    calculate_percentile_rank [some 10, some 20, some 20, some 30] (some 10) =
      some (25/2) := by
  rw [percentile_formula _ 10 (by decide)]
  have hb : spec_count_below [some 10, some 20, some 20, some 30] 10 = 0 := by
    decide
  have he : spec_count_equal [some 10, some 20, some 20, some 30] 10 = 1 := by
    decide
  have hn : spec_defined_count [some 10, some 20, some 20, some 30] = 4 := by
    decide
  rw [spec_percentile, hb, he, hn]
  have harg : (((0 : ℕ) : ℚ) + (0.5 : ℚ) * ((1 : ℕ) : ℚ)) / ((4 : ℕ) : ℚ) * 100 =
      25/2 := by norm_num
  rw [harg, round2, show (25/2 : ℚ) * 100 = ((1250 : ℤ) : ℚ) by norm_num,
    roundHalfEven_eq_of_lt_half (le_refl _) (by norm_num)]
  norm_num

/-- C5: whenever `calculate_percentile_rank` returns a defined value, that
value lies in the closed interval [0, 100]. -/
theorem calculate_percentile_rank_in_range (series : List (Option ℚ))
    (value : Option ℚ) (p : ℚ)
    (h : calculate_percentile_rank series value = some p) :
    0 ≤ p ∧ p ≤ 100 := by
  cases value with
  | none => simp [calculate_percentile_rank] at h
  | some v =>
    obtain ⟨hn, hp⟩ := percentile_some_elim h
    set l := series.filterMap id with hl
    set b := l.countP (fun x => decide (x < v)) with hbdef
    set e := l.countP (fun x => decide (x = v)) with hedef
    have hben : b + e ≤ l.length :=
      countP_add_le_length _ _ l (below_equal_disjoint v l)
    have hn' : (0 : ℚ) < (l.length : ℚ) := by exact_mod_cast hn
    have he0 : (0 : ℚ) ≤ (e : ℚ) := Nat.cast_nonneg e
    have hb0 : (0 : ℚ) ≤ (b : ℚ) := Nat.cast_nonneg b
    have hbe : (b : ℚ) + 0.5 * (e : ℚ) ≤ (l.length : ℚ) := by
      have hq : (b : ℚ) + (e : ℚ) ≤ (l.length : ℚ) := by exact_mod_cast hben
      have h05 : (0.5 : ℚ) = 1/2 := by norm_num
      rw [h05]
      linarith
    set Q := ((b : ℚ) + 0.5 * (e : ℚ)) / (l.length : ℚ) * 100 with hQdef
    have hQ0 : 0 ≤ Q := by
      rw [hQdef]
      have h05 : (0 : ℚ) ≤ (b : ℚ) + 0.5 * (e : ℚ) := by
        have : (0.5 : ℚ) = 1/2 := by norm_num
        rw [this]
        linarith
      positivity
    have hQ100 : Q ≤ 100 := by
      rw [hQdef, div_mul_eq_mul_div, div_le_iff₀ hn']
      linarith
    obtain ⟨hlo, hhi⟩ := roundHalfEven_bounds (Q * 100)
    have hge : (0 : ℤ) ≤ roundHalfEven (Q * 100) := by
      have hq1 : (-1 : ℚ) < (roundHalfEven (Q * 100) : ℚ) := by linarith
      have hq2 : (-1 : ℤ) < roundHalfEven (Q * 100) := by exact_mod_cast hq1
      omega
    have hle : roundHalfEven (Q * 100) ≤ (10000 : ℤ) := by
      have hq1 : (roundHalfEven (Q * 100) : ℚ) < 10001 := by linarith
      have hq2 : roundHalfEven (Q * 100) < (10001 : ℤ) := by exact_mod_cast hq1
      omega
    rw [hp, round2]
    constructor
    · have hc : (0 : ℚ) ≤ (roundHalfEven (Q * 100) : ℚ) := by exact_mod_cast hge
      exact div_nonneg hc (by norm_num)
    · have hc : (roundHalfEven (Q * 100) : ℚ) ≤ 10000 := by exact_mod_cast hle
      rw [div_le_iff₀ (by norm_num : (0 : ℚ) < 100)]
      linarith

/-- C5 witness: the defined result 50.0 on the example series is within
[0, 100]. -/
theorem calculate_percentile_rank_in_range_witness :
    (0 : ℚ) ≤ 50 ∧ (50 : ℚ) ≤ 100 :=
  calculate_percentile_rank_in_range [some 10, some 20, some 20, some 30]
    (some 20) 50 percentile_example_fifty

/-- C6: special cases of `calculate_percentile_rank` on a series with a
defined value: if the query equals every defined element the result is
exactly 50.0; if the query occurs exactly once and is strictly below every
other element the result is 0.5/n*100 rounded to two decimals; if it occurs
exactly once and is strictly above every other element the result is
(n-1+0.5)/n*100 rounded to two decimals, with n the defined count. -/
theorem percentile_special_cases (series : List (Option ℚ)) (v : ℚ)
    (hpos : 0 < spec_defined_count series) :
    ((∀ x ∈ series.filterMap id, x = v) →
      calculate_percentile_rank series (some v) = some 50) ∧
    ((spec_count_equal series v = 1 ∧
        (∀ x ∈ series.filterMap id, x = v ∨ v < x)) →
      calculate_percentile_rank series (some v) =
        some (round2 ((0.5 : ℚ) / (spec_defined_count series : ℚ) * 100))) ∧
    ((spec_count_equal series v = 1 ∧
        (∀ x ∈ series.filterMap id, x = v ∨ x < v)) →
      calculate_percentile_rank series (some v) =
        some (round2 (((spec_defined_count series : ℚ) - 1 + (0.5 : ℚ)) /
          (spec_defined_count series : ℚ) * 100))) := by
  have hn0 : ((spec_defined_count series : ℚ)) ≠ 0 := by
    have : (0 : ℚ) < (spec_defined_count series : ℚ) := by exact_mod_cast hpos
    linarith
  refine ⟨fun hall => ?_, fun hmin => ?_, fun hmax => ?_⟩
  · rw [percentile_formula series v hpos, spec_percentile]
    have hb : spec_count_below series v = 0 := by
      rw [spec_count_below, ← List.countP_eq_length_filter, List.countP_eq_zero]
      intro a ha
      simp only [decide_eq_true_eq]
      rw [hall a ha]
      exact lt_irrefl v
    have he : spec_count_equal series v = spec_defined_count series := by
      rw [spec_count_equal, spec_defined_count, ← List.countP_eq_length_filter,
        List.countP_eq_length]
      intro a ha
      simp only [decide_eq_true_eq]
      exact hall a ha
    rw [hb, he]
    have harg : (((0 : ℕ) : ℚ) + (0.5 : ℚ) * ((spec_defined_count series : ℕ) : ℚ)) /
        ((spec_defined_count series : ℕ) : ℚ) * 100 = 50 := by
      field_simp
      ring
    rw [harg, round2, show (50 : ℚ) * 100 = ((5000 : ℤ) : ℚ) by norm_num,
      roundHalfEven_eq_of_lt_half (le_refl _) (by norm_num)]
    norm_num
  · obtain ⟨he1, hlo⟩ := hmin
    rw [percentile_formula series v hpos, spec_percentile]
    have hb : spec_count_below series v = 0 := by
      rw [spec_count_below, ← List.countP_eq_length_filter, List.countP_eq_zero]
      intro a ha
      simp only [decide_eq_true_eq]
      rcases hlo a ha with h | h
      · rw [h]
        exact lt_irrefl v
      · exact not_lt_of_gt h
    rw [hb, he1]
    congr 2
    push_cast
    ring
  · obtain ⟨he1, hhi⟩ := hmax
    rw [percentile_formula series v hpos, spec_percentile]
    have hcov : spec_defined_count series =
        spec_count_below series v + spec_count_equal series v := by
      rw [spec_defined_count, spec_count_below, spec_count_equal,
        ← List.countP_eq_length_filter, ← List.countP_eq_length_filter,
        ← countP_disjoint_or _ _ _ (below_equal_disjoint v (series.filterMap id))]
      symm
      rw [List.countP_eq_length]
      intro a ha
      rcases hhi a ha with h | h
      · simp [h]
      · simp [h]
    have hb : spec_count_below series v = spec_defined_count series - 1 := by
      omega
    rw [hb, he1]
    congr 2
    rw [Nat.cast_sub (by omega : 1 ≤ spec_defined_count series)]
    push_cast
    ring

/-- C6 witness: on [7, 7] the all-equal query 7 gives 50.0; on [1, 2, 3] the
unique minimum 1 gives round2(0.5/3*100) = 16.67 and the unique maximum 3
gives round2(2.5/3*100) = 83.33. -/
theorem percentile_special_cases_witness :
    calculate_percentile_rank [some 7, some 7] (some 7) = some 50 ∧
    calculate_percentile_rank [some 1, some 2, some 3] (some 1) =
      some (1667/100) ∧
    calculate_percentile_rank [some 1, some 2, some 3] (some 3) =
      some (8333/100) := by
  refine ⟨?_, ?_, ?_⟩
  · exact (percentile_special_cases [some 7, some 7] 7 (by decide)).1 (by decide)
  · have h := (percentile_special_cases [some 1, some 2, some 3] 1
      (by decide)).2.1 ⟨by decide, by decide⟩
    rw [h, show spec_defined_count [some 1, some 2, some 3] = 3 from by decide]
    have harg : (0.5 : ℚ) / ((3 : ℕ) : ℚ) * 100 = 50/3 := by norm_num
    rw [harg, round2,
      roundHalfEven_eq_of_gt_half (n := 1667) (by norm_num) (by norm_num)]
    norm_num
  · have h := (percentile_special_cases [some 1, some 2, some 3] 3
      (by decide)).2.2 ⟨by decide, by decide⟩
    rw [h, show spec_defined_count [some 1, some 2, some 3] = 3 from by decide]
    have harg : (((3 : ℕ) : ℚ) - 1 + (0.5 : ℚ)) / ((3 : ℕ) : ℚ) * 100 = 250/3 := by
      norm_num
    rw [harg, round2,
      roundHalfEven_eq_of_lt_half (n := 8333) (by norm_num) (by norm_num)]
    norm_num

/-- Two-decimal rounding is monotone. -/
theorem round2_mono {x y : ℚ} (h : x ≤ y) : round2 x ≤ round2 y := by
  simp only [round2]
  have hm := roundHalfEven_mono
    (mul_le_mul_of_nonneg_right h (by norm_num : (0 : ℚ) ≤ 100))
  have hm' : (roundHalfEven (x * 100) : ℚ) ≤ (roundHalfEven (y * 100) : ℚ) := by
    exact_mod_cast hm
  linarith

/-- C10: for a fixed series, the percentile rank is monotone non-decreasing
in the query value. -/
theorem percentile_monotone (series : List (Option ℚ)) (v1 v2 : ℚ)
    (hv : v1 ≤ v2) (p1 p2 : ℚ)
    (h1 : calculate_percentile_rank series (some v1) = some p1)
    (h2 : calculate_percentile_rank series (some v2) = some p2) :
    p1 ≤ p2 := by
  rcases eq_or_lt_of_le hv with heq | hlt
  · subst heq
    rw [h1] at h2
    exact le_of_eq (Option.some_inj.mp h2)
  · obtain ⟨hn, hp1⟩ := percentile_some_elim h1
    obtain ⟨-, hp2⟩ := percentile_some_elim h2
    set l := series.filterMap id with hldef
    have hkey : l.countP (fun x => decide (x < v1)) +
        l.countP (fun x => decide (x = v1)) ≤
        l.countP (fun x => decide (x < v2)) := by
      rw [← countP_disjoint_or _ _ _ (below_equal_disjoint v1 l)]
      apply List.countP_mono_left
      intro x _ hx
      rw [Bool.or_eq_true, decide_eq_true_eq, decide_eq_true_eq] at hx
      rw [decide_eq_true_eq]
      rcases hx with h | h
      · exact lt_trans h hlt
      · rw [h]
        exact hlt
    have hn' : (0 : ℚ) < (l.length : ℚ) := by exact_mod_cast hn
    have he1n : (0 : ℚ) ≤ (l.countP (fun x => decide (x = v1)) : ℚ) :=
      Nat.cast_nonneg _
    have he2n : (0 : ℚ) ≤ (l.countP (fun x => decide (x = v2)) : ℚ) :=
      Nat.cast_nonneg _
    have hkey' : (l.countP (fun x => decide (x < v1)) : ℚ) +
        (l.countP (fun x => decide (x = v1)) : ℚ) ≤
        (l.countP (fun x => decide (x < v2)) : ℚ) := by exact_mod_cast hkey
    have h05 : (0.5 : ℚ) = 1/2 := by norm_num
    have hnum : (l.countP (fun x => decide (x < v1)) : ℚ) +
        (0.5 : ℚ) * (l.countP (fun x => decide (x = v1)) : ℚ) ≤
        (l.countP (fun x => decide (x < v2)) : ℚ) +
        (0.5 : ℚ) * (l.countP (fun x => decide (x = v2)) : ℚ) := by
      rw [h05]
      linarith
    have harg : (((l.countP (fun x => decide (x < v1)) : ℚ) +
        (0.5 : ℚ) * (l.countP (fun x => decide (x = v1)) : ℚ)) /
        (l.length : ℚ) * 100) ≤
        (((l.countP (fun x => decide (x < v2)) : ℚ) +
        (0.5 : ℚ) * (l.countP (fun x => decide (x = v2)) : ℚ)) /
        (l.length : ℚ) * 100) := by
      apply mul_le_mul_of_nonneg_right _ (by norm_num : (0 : ℚ) ≤ 100)
      exact div_le_div_of_nonneg_right hnum (le_of_lt hn')
    rw [hp1, hp2]
    exact round2_mono harg

/-- C10 witness: on the example series the percentile at query 10 (12.5) is
at most the percentile at query 20 (50.0). -/
theorem percentile_monotone_witness : (25/2 : ℚ) ≤ 50 :=
  percentile_monotone [some 10, some 20, some 20, some 30] 10 20 (by norm_num)
    (25/2) 50 percentile_example_min percentile_example_fifty

/-- If every attempt the loop can reach raises, the loop returns `none`. -/
theorem go_all_err {α : Type} (api : ℕ → CallOutcome α) :
    ∀ (fuel : ℕ) (st : TushareAPI) (now : ℚ) (attempt : ℕ),
      (∀ j, j < fuel → (api (attempt + j)).isErr = true) →
      (call_with_retry_go api st now attempt fuel).result = none := by
  intro fuel
  induction fuel with
  | zero => intro st now attempt _; rfl
  | succ n ih =>
    intro st now attempt h
    have h0 := h 0 (by omega)
    rw [Nat.add_zero] at h0
    simp only [call_with_retry_go]
    cases hapi : api attempt with
    | ok r d =>
      rw [hapi] at h0
      simp [CallOutcome.isErr] at h0
    | err m d =>
      simp only
      apply ih
      intro j hj
      have := h (j + 1) (by omega)
      rwa [show attempt + (j + 1) = attempt + 1 + j from by omega] at this

/-- Shifting the attempt index into the operation's behaviour. -/
theorem go_shift {α : Type} (api : ℕ → CallOutcome α) (st : TushareAPI) :
    ∀ (fuel : ℕ) (now : ℚ) (attempt : ℕ),
      call_with_retry_go api st now (attempt + 1) fuel =
        call_with_retry_go (fun i => api (i + 1)) st now attempt fuel := by
  intro fuel
  induction fuel with
  | zero => intro now attempt; rfl
  | succ n ih =>
    intro now attempt
    simp only [call_with_retry_go]
    cases hapi : api (attempt + 1) with
    | ok r d => simp only [hapi]
    | err m d =>
      simp only [hapi]
      rw [ih]

/-- The pre-call pacing: the call is issued at the later of the current clock
and `last_request_time + REQUEST_INTERVAL`. -/
theorem start_eq_max (now L : ℚ) :
    (if now - L < REQUEST_INTERVAL then now + (REQUEST_INTERVAL - (now - L))
      else now) = max now (L + REQUEST_INTERVAL) := by
  split_ifs with h
  · rw [max_eq_right (by linarith)]
    ring
  · rw [max_eq_left (by linarith)]

/-- C3: if the wrapped operation fails on all of its attempts,
`call_with_retry` returns the sentinel `none` once the `max_retries` attempts
are exhausted; the embedding is total, so no exception reaches the caller. -/
theorem call_with_retry_all_fail_returns_none {α : Type} (st : TushareAPI)
    (api : ℕ → CallOutcome α) (now : ℚ) (max_retries : ℕ)
    (h : ∀ i, i < max_retries → (api i).isErr = true) :
    (st.call_with_retry api now max_retries).result = none := by
  unfold TushareAPI.call_with_retry
  apply go_all_err
  intro j hj
  rw [Nat.zero_add]
  exact h j hj

/-- C3 witness: with the default bound of five attempts and an operation that
always raises, the call returns `none`. -/
theorem call_with_retry_all_fail_returns_none_witness :
    ((⟨0, 0, 0⟩ : TushareAPI).call_with_retry
      (fun _ => CallOutcome.err (α := ℕ) "boom" 1) 100 5).result = none :=
  call_with_retry_all_fail_returns_none ⟨0, 0, 0⟩ _ 100 5 (fun _ _ => rfl)

/-- C4: a failed attempt consumes exactly one of the `max_retries` attempts
whatever the error kind, and the loop resumes at the failure's completion
time plus `RATE_LIMIT_WAIT` (65) for a rate-limit message and plus 2 for any
other error. -/
theorem call_with_retry_failed_attempt_step {α : Type} (st : TushareAPI)
    (api : ℕ → CallOutcome α) (now : ℚ) (n : ℕ) (m : String) (d : ℚ)
    (h : api 0 = CallOutcome.err m d) :
    st.call_with_retry api now (n + 1) =
      consume_one_attempt (st.call_with_retry (fun i => api (i + 1))
        (max now (st.last_request_time + REQUEST_INTERVAL) + d +
          (if isRateLimitMsg m then RATE_LIMIT_WAIT else 2)) n) := by
  unfold TushareAPI.call_with_retry
  simp only [call_with_retry_go, h]
  rw [go_shift]
  rw [start_eq_max now st.last_request_time]
  by_cases hrl : isRateLimitMsg m = true <;>
    simp [hrl, consume_one_attempt]

/-- C4 witness: a non-rate-limit failure at attempt 0 consumes one of the two
attempts and delays the next attempt by 2. -/
theorem call_with_retry_failed_attempt_step_witness :
    (⟨0, 0, 0⟩ : TushareAPI).call_with_retry
        (fun _ => CallOutcome.err (α := ℕ) "x" 0) 10 2 =
      consume_one_attempt ((⟨0, 0, 0⟩ : TushareAPI).call_with_retry
        (fun _ => CallOutcome.err (α := ℕ) "x" 0)
        (max 10 ((0 : ℚ) + REQUEST_INTERVAL) + 0 +
          (if isRateLimitMsg "x" then RATE_LIMIT_WAIT else 2)) 1) :=
  call_with_retry_failed_attempt_step ⟨0, 0, 0⟩ _ 10 1 "x" 0 rfl

/-- Any successful run of the loop completes at least `REQUEST_INTERVAL`
after the recorded time of the previous successful call. -/
theorem go_success_last_ge {α : Type} (api : ℕ → CallOutcome α)
    (st : TushareAPI) (hd : ∀ i, 0 ≤ (api i).dur) :
    ∀ (fuel : ℕ) (now : ℚ) (attempt : ℕ),
      (call_with_retry_go api st now attempt fuel).result.isSome = true →
      st.last_request_time + REQUEST_INTERVAL ≤
        (call_with_retry_go api st now attempt fuel).state.last_request_time := by
  intro fuel
  induction fuel with
  | zero => intro now attempt h; simp [call_with_retry_go] at h
  | succ n ih =>
    intro now attempt h
    simp only [call_with_retry_go] at h ⊢
    cases hapi : api attempt with
    | ok r d =>
      simp only
      have hdur : 0 ≤ d := by
        have hda := hd attempt
        rw [hapi] at hda
        exact hda
      split_ifs with hs
      · have heq : now + (REQUEST_INTERVAL - (now - st.last_request_time)) =
            st.last_request_time + REQUEST_INTERVAL := by ring
        rw [heq]
        linarith
      · linarith [not_lt.mp hs]
    | err m d =>
      rw [hapi] at h
      simp only at h ⊢
      exact ih _ _ h

/-- C7: every attempt is issued only after the remainder of the 0.3-unit
minimum interval since the last successful call has been slept out, so two
consecutive successful calls issued back-to-back complete at least
`REQUEST_INTERVAL = 0.3` apart. -/
theorem call_with_retry_min_gap {α : Type} (st : TushareAPI)
    (api1 api2 : ℕ → CallOutcome α) (now : ℚ) (n1 n2 : ℕ)
    (hd : ∀ i, 0 ≤ (api2 i).dur)
    (_h1 : (st.call_with_retry api1 now n1).result.isSome = true)
    (h2 : (((st.call_with_retry api1 now n1).state).call_with_retry api2
        ((st.call_with_retry api1 now n1).clock) n2).result.isSome = true) :
    (st.call_with_retry api1 now n1).state.last_request_time +
        REQUEST_INTERVAL ≤
      (((st.call_with_retry api1 now n1).state).call_with_retry api2
        ((st.call_with_retry api1 now n1).clock) n2).state.last_request_time :=
  go_success_last_ge api2 (st.call_with_retry api1 now n1).state hd n2
    (st.call_with_retry api1 now n1).clock 0 h2

/-- C7 witness: two back-to-back instantaneous successful calls are paced at
least 0.3 time units apart. -/
theorem call_with_retry_min_gap_witness :
    ((⟨0, 0, 0⟩ : TushareAPI).call_with_retry
        (fun _ => CallOutcome.ok (1 : ℕ) 0) 10 1).state.last_request_time +
        REQUEST_INTERVAL ≤
      ((((⟨0, 0, 0⟩ : TushareAPI).call_with_retry
          (fun _ => CallOutcome.ok (1 : ℕ) 0) 10 1).state).call_with_retry
        (fun _ => CallOutcome.ok (1 : ℕ) 0)
        (((⟨0, 0, 0⟩ : TushareAPI).call_with_retry
          (fun _ => CallOutcome.ok (1 : ℕ) 0) 10 1).clock)
        1).state.last_request_time := by
  have hr1 : ((⟨0, 0, 0⟩ : TushareAPI).call_with_retry
      (fun _ => CallOutcome.ok (1 : ℕ) 0) 10 1) = ⟨some 1, ⟨0, 10, 1⟩, 10, 1⟩ := by
    simp only [TushareAPI.call_with_retry, call_with_retry_go]
    rw [if_neg (by norm_num [REQUEST_INTERVAL])]
    norm_num
  refine call_with_retry_min_gap ⟨0, 0, 0⟩ _ _ 10 1 1 (fun _ => le_refl 0) ?_ ?_
  · rw [hr1]
    rfl
  · rw [hr1]
    simp only [TushareAPI.call_with_retry, call_with_retry_go]
    rfl

/-- A successful run of the loop bumps `total_requests` by one, leaves `pro`
alone, records the completion clock in `last_request_time`, and returns the
value of some attempt's successful outcome. -/
theorem go_success_spec {α : Type} (api : ℕ → CallOutcome α) :
    ∀ (fuel : ℕ) (st : TushareAPI) (now : ℚ) (attempt : ℕ) (r : α),
      (call_with_retry_go api st now attempt fuel).result = some r →
      (call_with_retry_go api st now attempt fuel).state.total_requests =
          st.total_requests + 1 ∧
        (call_with_retry_go api st now attempt fuel).state.pro = st.pro ∧
        (call_with_retry_go api st now attempt fuel).state.last_request_time =
          (call_with_retry_go api st now attempt fuel).clock ∧
        ∃ k d, attempt ≤ k ∧ k < attempt + fuel ∧
          api k = CallOutcome.ok r d := by
  intro fuel
  induction fuel with
  | zero => intro st now attempt r h; simp [call_with_retry_go] at h
  | succ n ih =>
    intro st now attempt r h
    simp only [call_with_retry_go] at h ⊢
    cases hapi : api attempt with
    | ok r' d =>
      rw [hapi] at h
      simp only at h ⊢
      have hr : r' = r := Option.some_inj.mp h
      subst hr
      refine ⟨by trivial, by trivial, by trivial, attempt, d, le_refl _,
        by omega, hapi⟩
    | err m d =>
      rw [hapi] at h
      simp only at h ⊢
      obtain ⟨ht, hpro, hlast, k, d', hk1, hk2, hk3⟩ := ih st _ (attempt + 1) r h
      exact ⟨ht, hpro, hlast, k, d', by omega, by omega, hk3⟩

/-- C8: when the wrapped operation succeeds on some attempt, the call records
the completion time in `last_request_time`, increments `total_requests` by
exactly one, leaves the rest of the client state (`pro`) unchanged, and
returns the wrapped operation's result. -/
theorem call_with_retry_success_effects {α : Type} (st : TushareAPI)
    (api : ℕ → CallOutcome α) (now : ℚ) (n : ℕ) (r : α)
    (h : (st.call_with_retry api now n).result = some r) :
    (st.call_with_retry api now n).state.total_requests =
        st.total_requests + 1 ∧
      (st.call_with_retry api now n).state.last_request_time =
        (st.call_with_retry api now n).clock ∧
      (st.call_with_retry api now n).state.pro = st.pro ∧
      ∃ k d, k < n ∧ api k = CallOutcome.ok r d := by
  obtain ⟨ht, hpro, hlast, k, d, _, hk2, hk3⟩ := go_success_spec api n st now 0 r h
  exact ⟨ht, hlast, hpro, k, d, by omega, hk3⟩

/-- C8 witness: a first-attempt success on a fresh client yields counter 1,
a recorded completion time equal to the returned clock, an untouched `pro`,
and the operation's own result. -/
theorem call_with_retry_success_effects_witness :
    ((⟨0, 0, 0⟩ : TushareAPI).call_with_retry
        (fun _ => CallOutcome.ok (1 : ℕ) 0) 10 1).state.total_requests =
        (0 : ℕ) + 1 ∧
      ((⟨0, 0, 0⟩ : TushareAPI).call_with_retry
        (fun _ => CallOutcome.ok (1 : ℕ) 0) 10 1).state.last_request_time =
        ((⟨0, 0, 0⟩ : TushareAPI).call_with_retry
          (fun _ => CallOutcome.ok (1 : ℕ) 0) 10 1).clock ∧
      ((⟨0, 0, 0⟩ : TushareAPI).call_with_retry
        (fun _ => CallOutcome.ok (1 : ℕ) 0) 10 1).state.pro = 0 ∧
      ∃ k d, k < 1 ∧
        (fun _ : ℕ => CallOutcome.ok (1 : ℕ) 0) k = CallOutcome.ok 1 d := by
  apply call_with_retry_success_effects ⟨0, 0, 0⟩ _ 10 1 1
  simp only [TushareAPI.call_with_retry, call_with_retry_go]

/-- A run of the loop that returns `none` leaves the client state intact. -/
theorem go_none_state {α : Type} (api : ℕ → CallOutcome α) :
    ∀ (fuel : ℕ) (st : TushareAPI) (now : ℚ) (attempt : ℕ),
      (call_with_retry_go api st now attempt fuel).result = none →
      (call_with_retry_go api st now attempt fuel).state = st := by
  intro fuel
  induction fuel with
  | zero => intro st now attempt _; rfl
  | succ n ih =>
    intro st now attempt h
    simp only [call_with_retry_go] at h ⊢
    cases hapi : api attempt with
    | ok r d =>
      rw [hapi] at h
      simp at h
    | err m d =>
      rw [hapi] at h
      simp only at h ⊢
      exact ih st _ (attempt + 1) h

/-- C9: when `call_with_retry` returns the sentinel `none`, the client state
is unchanged: `total_requests` and `last_request_time` (and `pro`) hold the
same values as before the call. -/
theorem call_with_retry_none_state_unchanged {α : Type} (st : TushareAPI)
    (api : ℕ → CallOutcome α) (now : ℚ) (n : ℕ)
    (h : (st.call_with_retry api now n).result = none) :
    (st.call_with_retry api now n).state = st :=
  go_none_state api n st now 0 h

/-- C9 witness: two failing attempts leave the fresh client state ⟨0, 0, 0⟩
untouched. -/
theorem call_with_retry_none_state_unchanged_witness :
    ((⟨0, 0, 0⟩ : TushareAPI).call_with_retry
      (fun _ => CallOutcome.err (α := ℕ) "x" 0) 10 2).state = ⟨0, 0, 0⟩ :=
  call_with_retry_none_state_unchanged ⟨0, 0, 0⟩ _ 10 2
    (go_all_err _ 2 ⟨0, 0, 0⟩ 10 0 (fun _ _ => rfl))

end IndustryPePbSw
